import Mathlib

/-!
Shallow embedding of `src/ListFiles.py` (repository `ListFIlesInDir`).

The script has four parts that the claims talk about:
  * `human_size`  (ListFiles.py lines 21-30): binary-unit size formatter;
  * `dir_size`    (lines 32-44): `os.walk`-based byte aggregator;
  * `list_tree`   (lines 48-85): sorted, exclusion-filtered recursive renderer;
  * `main`        (lines 125-140): root header line plus the fenced output.

The filesystem is modelled as an inductive tree `FSTree`.  A file carries a
`readable` flag (false models a file that disappears or cannot be statted
between discovery and measurement, so `os.path.exists`/`os.path.getsize`
fail); a directory carries a `listable` flag (false models
`os.listdir`/`os.scandir` raising `OSError`/`PermissionError`).

Python floats: the only float operation in the script is `nbytes /= 1024.0`
inside `human_size`, which is exact in binary floating point (an exponent
shift) for inputs below 2^53, and `f"{x:.2f}"`, which is correctly rounded
decimal conversion with ties to even.  The embedding therefore uses exact
rational arithmetic with explicit round-half-to-even, which agrees with the
Python double semantics on all inputs below 2^53.
-/

/-- `"  " * k` etc.: `k` concatenated copies of a string. -/
def repeatStr (k : ℕ) (s : String) : String :=
  match k with
  | 0 => ""
  | k + 1 => s ++ repeatStr k s

/-- Python `f"{s:<w}"`: pad `s` on the right with spaces to width `w`. -/
def padRight (s : String) (w : ℕ) : String :=
  s ++ repeatStr (w - s.length) " "

/-- Round the nonnegative rational `num / den` to the nearest integer, ties
to even — the rounding used by Python `f"{x:.2f}"` on the exact value of the
double (the rational is kept as an explicit numerator/denominator pair so
that the kernel can evaluate it). -/
def roundHalfEven (num den : ℕ) : ℕ :=
  let f := num / den
  let r := num % den
  if 2 * r < den then f
  else if den < 2 * r then f + 1
  else if f % 2 = 0 then f else f + 1

/-- Python `f"{x:.2f}"` for the nonnegative value `num / den`: the correctly
rounded two-decimal-digit representation. -/
def twoDecimalsRaw (num den : ℕ) : String :=
  let n := roundHalfEven (100 * num) den
  toString (n / 100) ++ "." ++
    (if n % 100 < 10 then "0" ++ toString (n % 100) else toString (n % 100))

/-- Python `s.rstrip(c)` for a single strip character: remove every trailing
occurrence of `c`. -/
def rstripChar (s : String) (c : Char) : String :=
  String.mk ((s.data.reverse.dropWhile (fun d => d == c)).reverse)

/-- Python `s.rstrip("0").rstrip(".")` from ListFiles.py line 28. -/
def stripZeros (s : String) : String :=
  rstripChar (rstripChar s '0') '.'

/-- The unit loop of `human_size` (ListFiles.py lines 25-30).  The running
float value is exactly `num / den` with `den` a power of 1024 (dividing a
double by 1024 only shifts its exponent, so no rounding happens in the
Python loop for inputs below 2^53).  Divide by 1024 per unit; once below
1024 format with two decimals and strip trailing zeros; if all five units
are exhausted, format the remaining value with the `PB` suffix and no
stripping (line 30). -/
def humanLoop (num den : ℕ) : List String → String
  | [] => twoDecimalsRaw num den ++ "PB"
  | unit :: rest =>
    let den2 := den * 1024
    if num < 1024 * den2 then stripZeros (twoDecimalsRaw num den2) ++ unit
    else humanLoop num den2 rest

/-- `human_size` (ListFiles.py lines 21-30): human-readable size with binary
(1024-based) units. -/
def human_size (nbytes : ℕ) : String :=
  if nbytes < 1024 then toString nbytes ++ "B"
  else humanLoop nbytes 1 ["KB", "MB", "GB", "TB", "PB"]

example : human_size 0 = "0B" := by decide
example : human_size 1023 = "1023B" := by decide
example : human_size 1024 = "1KB" := by decide
example : human_size 1536 = "1.5KB" := by decide
example : human_size 1126 = "1.1KB" := by decide

/-- A filesystem subtree.  `file name size readable`: `readable = false`
models a file that `os.path.exists`/`os.path.getsize` fail on (vanished or
unreadable).  `dir name listable children`: `listable = false` models a
directory whose contents cannot be listed (`os.listdir`/`os.scandir`
raise), which also makes `os.walk` skip its subtree. -/
inductive FSTree where
  | file (name : String) (size : ℕ) (readable : Bool)
  | dir (name : String) (listable : Bool) (children : List FSTree)

/-- Base name of an entry. -/
def FSTree.name : FSTree → String
  | .file n _ _ => n
  | .dir n _ _ => n

/-- `os.path.isdir` on an entry of the modelled tree. -/
def FSTree.isDirB : FSTree → Bool
  | .file _ _ _ => false
  | .dir _ _ _ => true

/-- The `(size, readable)` pairs of the files lying directly in a child
list, in order — the `files` component of one `os.walk` triple. -/
def directFilePairs (children : List FSTree) : List (ℕ × Bool) :=
  children.filterMap fun c =>
    match c with
    | .file _ sz r => some (sz, r)
    | .dir _ _ _ => none

mutual
/-- The `(size, readable)` pairs of every file yielded by
`os.walk(path)` over the modelled subtree, in walk order: the files of the
current directory first, then the subtrees of its subdirectories.  A
non-directory path and an unlistable directory yield nothing (with the
default `onerror=None`, `os.walk` swallows the scandir error and produces
no triple). -/
def walkFilePairs : FSTree → List (ℕ × Bool)
  | .file _ _ _ => []
  | .dir _ listable children =>
    if listable then directFilePairs children ++ walkFilePairsList children
    else []

/-- Concatenation of `walkFilePairs` over the subdirectories of a child
list (files contribute nothing at this stage). -/
def walkFilePairsList : List FSTree → List (ℕ × Bool)
  | [] => []
  | c :: rest => walkFilePairs c ++ walkFilePairsList rest
end

/-- Contribution of one walked file to the total of `dir_size`
(ListFiles.py lines 38-43): its size if the existence check and
`os.path.getsize` succeed, otherwise `continue`, i.e. zero. -/
def filePairContribution (p : ℕ × Bool) : ℕ :=
  if p.2 then p.1 else 0

/-- `dir_size` (ListFiles.py lines 32-44): sum of `os.path.getsize` over
every file reached by `os.walk`, with vanished/unreadable files skipped. -/
def dir_size (t : FSTree) : ℕ :=
  ((walkFilePairs t).map filePairContribution).sum

/-- Python `<=` on strings: lexicographic comparison of code points — here
on the underlying character lists. -/
def charListLe : List Char → List Char → Bool
  | [], _ => true
  | _ :: _, [] => false
  | a :: as, b :: bs =>
    if a.toNat < b.toNat then true
    else if b.toNat < a.toNat then false
    else charListLe as bs

/-- Comparing cons cells with a smaller first code point. -/
theorem charListLe_cons_lt {a b : Char} (as bs : List Char) (h : a.toNat < b.toNat) :
    charListLe (a :: as) (b :: bs) = true := by
  simp [charListLe, h]

/-- Comparing cons cells with a larger first code point. -/
theorem charListLe_cons_gt {a b : Char} (as bs : List Char) (h : b.toNat < a.toNat) :
    charListLe (a :: as) (b :: bs) = false := by
  simp [charListLe, Nat.lt_asymm h, h]

/-- Comparing cons cells with equal first code points. -/
theorem charListLe_cons_eq {a b : Char} (as bs : List Char) (h : a.toNat = b.toNat) :
    charListLe (a :: as) (b :: bs) = charListLe as bs := by
  simp [charListLe, h]

/-- `charListLe` is total. -/
theorem charListLe_total : ∀ as bs, charListLe as bs = true ∨ charListLe bs as = true := by
  intro as
  induction as with
  | nil => intro bs; left; rfl
  | cons a as ih =>
    intro bs
    cases bs with
    | nil => right; rfl
    | cons b bs =>
      rcases Nat.lt_trichotomy a.toNat b.toNat with hab | hab | hab
      · left; exact charListLe_cons_lt as bs hab
      · rw [charListLe_cons_eq as bs hab, charListLe_cons_eq bs as hab.symm]
        exact ih bs
      · right; exact charListLe_cons_lt bs as hab

/-- `charListLe` is transitive. -/
theorem charListLe_trans :
    ∀ as bs cs, charListLe as bs = true → charListLe bs cs = true →
      charListLe as cs = true := by
  intro as
  induction as with
  | nil => intro bs cs h1 h2; rfl
  | cons a as ih =>
    intro bs cs h1 h2
    cases bs with
    | nil => exact absurd h1 (by simp [charListLe])
    | cons b bs =>
      cases cs with
      | nil => exact absurd h2 (by simp [charListLe])
      | cons c cs =>
        rcases Nat.lt_trichotomy a.toNat b.toNat with hab | hab | hab
        · rcases Nat.lt_trichotomy b.toNat c.toNat with hbc | hbc | hbc
          · exact charListLe_cons_lt as cs (Nat.lt_trans hab hbc)
          · exact charListLe_cons_lt as cs (by omega)
          · rw [charListLe_cons_gt bs cs hbc] at h2; cases h2
        · rcases Nat.lt_trichotomy b.toNat c.toNat with hbc | hbc | hbc
          · exact charListLe_cons_lt as cs (by omega)
          · rw [charListLe_cons_eq as bs hab] at h1
            rw [charListLe_cons_eq bs cs hbc] at h2
            rw [charListLe_cons_eq as cs (by omega)]
            exact ih bs cs h1 h2
          · rw [charListLe_cons_gt bs cs hbc] at h2; cases h2
        · rw [charListLe_cons_gt as bs hab] at h1; cases h1

/-- The Boolean form of the sort key comparison of ListFiles.py line 59:
Python sorts the entries by the tuple
`(not os.path.isdir(full), name.lower())`, so directories precede files and
same-kind entries compare by the lower-cased name, code-point
lexicographically. -/
def entryLEB (a b : FSTree) : Bool :=
  if a.isDirB = b.isDirB then charListLe (a.name.data.map Char.toLower) (b.name.data.map Char.toLower)
  else a.isDirB

/-- The sort relation used by the rendering: `a` may come before `b`. -/
def entryLE (a b : FSTree) : Prop := entryLEB a b = true

instance : DecidableRel entryLE := fun a b => decEq (entryLEB a b) true

instance : IsTotal FSTree entryLE := by
  constructor
  intro a b
  unfold entryLE entryLEB
  cases ha : a.isDirB <;> cases hb : b.isDirB <;> simp [ha, hb]
  · exact charListLe_total _ _
  · exact charListLe_total _ _

instance : IsTrans FSTree entryLE := by
  constructor
  intro a b c h1 h2
  unfold entryLE entryLEB at h1 h2 ⊢
  cases ha : a.isDirB <;> cases hb : b.isDirB <;> cases hc : c.isDirB <;>
    simp only [ha, hb, hc, if_pos, if_neg, Bool.false_eq_true, Bool.true_eq_false,
      ite_true, ite_false, if_true, if_false, reduceIte] at h1 h2 ⊢ <;>
    first
      | rfl
      | exact charListLe_trans _ _ _ h1 h2

/-- The `sorted(...)` call of ListFiles.py lines 57-60: a stable sort of
the entries by `(not isdir, lower-cased name)`.  Insertion sort with a
total preorder is stable, hence extensionally identical to Python's
`sorted`. -/
def sortEntries (cs : List FSTree) : List FSTree :=
  List.insertionSort entryLE cs

/-- Size string of one rendered entry (ListFiles.py lines 72-76): a
directory child gets `human_size (dir_size ...)` (`dir_size` never raises);
a file child gets `human_size (os.path.getsize ...)`, and the
`OSError`/`PermissionError` handler turns an unreadable file into the
literal `"<inaccessible>"`. -/
def sizeStrOf (c : FSTree) : String :=
  match c with
  | .dir _ _ _ => human_size (dir_size c)
  | .file _ sz r => if r then human_size sz else "<inaccessible>"

/-- `list_tree` (ListFiles.py lines 48-85), as the list of printed lines.
On a listable directory: sort the children (lines 57-60), skip the excluded
names (lines 65-67), print a `FO` line and recurse for a directory child
(lines 80-83), print a `- [ ] FI` line for a file child (line 85).  If the
listing itself fails — unlistable directory, or a path that is not a
directory at all, so `os.listdir` raises — print the single
`[ ] !! ... <inaccessible>` marker (lines 61-63) and return. -/
def list_tree (t : FSTree) (excluded : List String) (nestedLevel : ℕ) : List String :=
  match t with
  | .file nm _ _ => [repeatStr nestedLevel "  " ++ "[ ] !! " ++ nm ++ " <inaccessible>"]
  | .dir nm listable children =>
    if listable then
      ((sortEntries children).attach.map fun c =>
        if c.1.name ∈ excluded then []
        else if c.1.isDirB then
          (repeatStr nestedLevel "  " ++ "[ ] FO " ++ c.1.name ++ "  " ++ sizeStrOf c.1)
            :: list_tree c.1 excluded (nestedLevel + 1)
        else
          [repeatStr nestedLevel "  " ++ "- [ ] FI " ++ c.1.name ++ "  " ++ sizeStrOf c.1]).flatten
    else [repeatStr nestedLevel "  " ++ "[ ] !! " ++ nm ++ " <inaccessible>"]
termination_by sizeOf t
decreasing_by
  have h2 := List.sizeOf_lt_sizeOf_of_mem ((List.perm_insertionSort entryLE _).mem_iff.mp c.2)
  simp only [FSTree.dir.sizeOf_spec]
  omega

/-- The body of the `for name in entries` loop of ListFiles.py lines 65-85
for one non-excluded entry: the lines printed for that entry (including the
recursive output for a directory). -/
def renderOne (c : FSTree) (excluded : List String) (lvl : ℕ) : List String :=
  if c.isDirB then
    (repeatStr lvl "  " ++ "[ ] FO " ++ c.name ++ "  " ++ sizeStrOf c)
      :: list_tree c excluded (lvl + 1)
  else
    [repeatStr lvl "  " ++ "- [ ] FI " ++ c.name ++ "  " ++ sizeStrOf c]

/-- The whole `for name in entries` loop of ListFiles.py lines 65-85 over an
(already sorted) entry list: excluded names are skipped, every other entry
contributes `renderOne`. -/
def renderList (cs : List FSTree) (excluded : List String) (lvl : ℕ) : List String :=
  match cs with
  | [] => []
  | c :: rest =>
    (if c.name ∈ excluded then [] else renderOne c excluded lvl) ++ renderList rest excluded lvl

/-- `list_tree` on a non-directory path: `os.listdir` raises, so only the
inaccessible marker is printed (ListFiles.py lines 61-63). -/
theorem list_tree_file (nm : String) (sz : ℕ) (r : Bool) (E : List String) (lvl : ℕ) :
    list_tree (.file nm sz r) E lvl
      = [repeatStr lvl "  " ++ "[ ] !! " ++ nm ++ " <inaccessible>"] := by
  simp [list_tree]

/-- `list_tree` on an unlistable directory: only the inaccessible marker is
printed (ListFiles.py lines 61-63). -/
theorem list_tree_unlistable (nm : String) (cs : List FSTree) (E : List String) (lvl : ℕ) :
    list_tree (.dir nm false cs) E lvl
      = [repeatStr lvl "  " ++ "[ ] !! " ++ nm ++ " <inaccessible>"] := by
  simp [list_tree]

/-- Flattening the per-entry blocks over a child list is `renderList`. -/
theorem flatten_map_renderOne (l : List FSTree) (E : List String) (lvl : ℕ) :
    ((l.map fun c => if c.name ∈ E then [] else renderOne c E lvl)).flatten
      = renderList l E lvl := by
  induction l with
  | nil => rfl
  | cons c rest ih => simp [renderList, ih]

/-- `list_tree` on a listable directory is the loop of ListFiles.py lines
65-85 run over the sorted child list. -/
theorem list_tree_sorted (nm : String) (cs : List FSTree) (E : List String) (lvl : ℕ) :
    list_tree (.dir nm true cs) E lvl = renderList (sortEntries cs) E lvl := by
  simp only [list_tree, reduceIte]
  exact Eq.trans
    (congrArg List.flatten
      (List.attach_map_coe _ (fun x => if x.name ∈ E then [] else renderOne x E lvl)))
    (flatten_map_renderOne _ _ _)

/-- The output of `main` (ListFiles.py lines 133-138) after the prompts:
the opening code fence, the root header line — the base name padded to 30
columns and the `dir_size` of the whole root, computed without regard to
the exclusion set — then `list_tree` from nesting level 1, then the closing
fence.  The tree's root name stands for `os.path.basename(root) or root`. -/
def renderMain (t : FSTree) (E : List String) : List String :=
  ["```",
    "[ ] FO " ++ padRight t.name 30 ++ " " ++ human_size (dir_size t)]
    ++ list_tree t E 1 ++ ["```"]

example :
    list_tree (.dir "r" true [.file "a" 1 true, .file "bb" 1 true]) [] 1
      = ["  - [ ] FI a  1B", "  - [ ] FI bb  1B"] := by
  rw [list_tree_sorted]; decide

example :
    list_tree (.dir "r" true [.file "b" 2 true, .dir "Z" true [], .file "A" 3 true]) [] 1
      = ["  [ ] FO Z  0B", "  - [ ] FI A  3B", "  - [ ] FI b  2B"] := by
  rw [list_tree_sorted]
  simp +decide [renderList, renderOne, sortEntries, List.insertionSort, List.orderedInsert,
    list_tree_sorted, list_tree_unlistable, list_tree_file, sizeStrOf]

/-- `renderList` distributes over appended entry lists. -/
theorem renderList_append (u v : List FSTree) (E : List String) (lvl : ℕ) :
    renderList (u ++ v) E lvl = renderList u E lvl ++ renderList v E lvl := by
  induction u with
  | nil => rfl
  | cons c rest ih => simp [renderList, ih]

/-- An entry whose name is excluded contributes nothing, wherever it sits
in the entry list. -/
theorem renderList_skip (u v : List FSTree) (x : FSTree) (E : List String) (lvl : ℕ)
    (hx : x.name ∈ E) :
    renderList (u ++ x :: v) E lvl = renderList (u ++ v) E lvl := by
  induction u with
  | nil => simp [renderList, hx]
  | cons c rest ih => simp [renderList, ih]

/-- `orderedInsert` places the new element somewhere inside the old list. -/
theorem orderedInsert_split (a : FSTree) :
    ∀ L : List FSTree, ∃ u v, List.orderedInsert entryLE a L = u ++ a :: v ∧ L = u ++ v := by
  intro L
  induction L with
  | nil => exact ⟨[], [], rfl, rfl⟩
  | cons c rest ih =>
    by_cases h : entryLE a c
    · exact ⟨[], c :: rest, by simp [List.orderedInsert, h], rfl⟩
    · obtain ⟨u, v, h1, h2⟩ := ih
      exact ⟨c :: u, v, by simp [List.orderedInsert, h, h1], by simp [h2]⟩

/-- Inserting `a` at the head of a sorted list it bounds from below. -/
theorem orderedInsert_head (a b : FSTree) (v : List FSTree)
    (hs : List.Sorted entryLE (b :: v)) (hab : entryLE a b) :
    List.orderedInsert entryLE a v = a :: v := by
  cases v with
  | nil => rfl
  | cons c v =>
    have hbc : entryLE b c := (List.sorted_cons.mp hs).1 c (by simp)
    have hac : entryLE a c := IsTrans.trans _ _ _ hab hbc
    simp [List.orderedInsert, hac]

/-- Stability of `orderedInsert` with respect to deleting one occurrence of
an element of a sorted list: inserting `a` into `u ++ b :: v` and into
`u ++ v` yields the same list up to the deleted `b`. -/
theorem orderedInsert_erase (a b : FSTree) :
    ∀ (u v : List FSTree), List.Sorted entryLE (u ++ b :: v) →
      ∃ u2 v2, List.orderedInsert entryLE a (u ++ b :: v) = u2 ++ b :: v2 ∧
        List.orderedInsert entryLE a (u ++ v) = u2 ++ v2 := by
  intro u
  induction u with
  | nil =>
    intro v hs
    by_cases h : entryLE a b
    · exact ⟨[a], v, by simp [List.orderedInsert, h], by simp [orderedInsert_head a b v hs h]⟩
    · exact ⟨[], List.orderedInsert entryLE a v, by simp [List.orderedInsert, h], rfl⟩
  | cons x u ih =>
    intro v hs
    by_cases h : entryLE a x
    · exact ⟨a :: x :: u, v, by simp [List.orderedInsert, h],
        by simp [List.orderedInsert, h]⟩
    · obtain ⟨u2, v2, h1, h2⟩ := ih v (List.sorted_cons.mp hs).2
      exact ⟨x :: u2, v2, by simp [List.orderedInsert, h, h1], by simp [List.orderedInsert, h, h2]⟩

/-- Stability of the sort with respect to deleting one list element:
sorting with one occurrence of `b` removed gives the sorted list with that
occurrence of `b` removed. -/
theorem sortEntries_erase (b : FSTree) :
    ∀ (l₁ l₂ : List FSTree), ∃ u v,
      sortEntries (l₁ ++ b :: l₂) = u ++ b :: v ∧ sortEntries (l₁ ++ l₂) = u ++ v := by
  intro l₁
  induction l₁ with
  | nil =>
    intro l₂
    obtain ⟨u, v, h1, h2⟩ := orderedInsert_split b (sortEntries l₂)
    exact ⟨u, v, h1, h2⟩
  | cons a l₁ ih =>
    intro l₂
    obtain ⟨u, v, h1, h2⟩ := ih l₂
    have hs : List.Sorted entryLE (u ++ b :: v) := by
      rw [← h1]
      exact List.sorted_insertionSort entryLE (l₁ ++ b :: l₂)
    obtain ⟨u2, v2, g1, g2⟩ := orderedInsert_erase a b u v hs
    refine ⟨u2, v2, ?_, ?_⟩
    · rw [show sortEntries ((a :: l₁) ++ b :: l₂)
            = List.orderedInsert entryLE a (sortEntries (l₁ ++ b :: l₂)) from rfl, h1]
      exact g1
    · rw [show sortEntries ((a :: l₁) ++ l₂)
            = List.orderedInsert entryLE a (sortEntries (l₁ ++ l₂)) from rfl, h2]
      exact g2

/-- Deleting an excluded child does not change the rendering of a listable
directory: the loop skips it wherever the sort placed it. -/
theorem list_tree_erase (nm : String) (l₁ l₂ : List FSTree) (b : FSTree)
    (E : List String) (lvl : ℕ) (hb : b.name ∈ E) :
    list_tree (.dir nm true (l₁ ++ b :: l₂)) E lvl
      = list_tree (.dir nm true (l₁ ++ l₂)) E lvl := by
  rw [list_tree_sorted, list_tree_sorted]
  obtain ⟨u, v, h1, h2⟩ := sortEntries_erase b l₁ l₂
  rw [h1, h2, renderList_skip u v b E lvl hb]

/-- The contribution of one direct child to the aggregate size of its
parent: a file contributes its byte length (zero when it cannot be
statted); a directory contributes its own recursive aggregate. -/
def childSizeContribution (c : FSTree) : ℕ :=
  match c with
  | .file _ sz r => if r then sz else 0
  | .dir _ _ _ => dir_size c

/-- `os.walk` of a non-directory path yields nothing, so `dir_size` is 0. -/
theorem dir_size_file (n : String) (sz : ℕ) (r : Bool) : dir_size (.file n sz r) = 0 := rfl

/-- `os.walk` cannot descend into an unlistable directory (the scandir
error is swallowed by the default `onerror=None`), so `dir_size` is 0. -/
theorem dir_size_unlistable (n : String) (gs : List FSTree) :
    dir_size (.dir n false gs) = 0 := by
  simp [dir_size, walkFilePairs]

/-- Additivity of the aggregate size over the direct children of a
listable directory. -/
theorem dir_size_listable (nm : String) (cs : List FSTree) :
    dir_size (.dir nm true cs) = (cs.map childSizeContribution).sum := by
  have key : ∀ l : List FSTree,
      ((directFilePairs l).map filePairContribution).sum
        + ((walkFilePairsList l).map filePairContribution).sum
      = (l.map childSizeContribution).sum := by
    intro l
    induction l with
    | nil => rfl
    | cons c rest ih =>
      cases c with
      | file n sz r =>
        have e1 : directFilePairs (FSTree.file n sz r :: rest)
            = (sz, r) :: directFilePairs rest := by
          simp [directFilePairs]
        have e2 : walkFilePairsList (FSTree.file n sz r :: rest)
            = walkFilePairsList rest := by
          simp [walkFilePairsList, walkFilePairs]
        simp only [e1, e2, List.map_cons, List.sum_cons, childSizeContribution,
          filePairContribution]
        omega
      | dir n lb gs =>
        have e1 : directFilePairs (FSTree.dir n lb gs :: rest) = directFilePairs rest := by
          simp [directFilePairs]
        have e2 : walkFilePairsList (FSTree.dir n lb gs :: rest)
            = walkFilePairs (FSTree.dir n lb gs) ++ walkFilePairsList rest := by
          simp [walkFilePairsList]
        have e3 : dir_size (FSTree.dir n lb gs)
            = ((walkFilePairs (FSTree.dir n lb gs)).map filePairContribution).sum := rfl
        simp only [e1, e2, List.map_cons, List.sum_cons, List.map_append, List.sum_append,
          childSizeContribution, e3]
        omega
  have top : dir_size (.dir nm true cs)
      = ((directFilePairs cs).map filePairContribution).sum
        + ((walkFilePairsList cs).map filePairContribution).sum := by
    simp [dir_size, walkFilePairs]
  rw [top, key]

/-- C1: for every (listable) directory, the aggregate computed by
`dir_size` equals the sum, over its direct children, of the child
contributions: a file child contributes its byte length (an unreadable one
is filtered out by the walk and contributes zero), a directory child
contributes its own recursive aggregate. -/
theorem claim_C1 (nm : String) (cs : List FSTree) :
    dir_size (.dir nm true cs) = (cs.map childSizeContribution).sum :=
  dir_size_listable nm cs

/-- C4: `human_size` uses binary 1024-based multiples, rounds to at most
two decimals and trims trailing zeros; in particular the four values named
by the spec, one more exercising the rounding, and every value below 1024
renders as the bare byte count followed by `B`. -/
theorem claim_C4 :
    human_size 0 = "0B" ∧ human_size 1023 = "1023B" ∧ human_size 1024 = "1KB"
      ∧ human_size 1536 = "1.5KB" ∧ human_size 1126 = "1.1KB"
      ∧ (∀ n : ℕ, n < 1024 → human_size n = toString n ++ "B") := by
  refine ⟨by decide, by decide, by decide, by decide, by decide, ?_⟩
  intro n h
  simp [human_size, h]

/-- C4 witness: the general below-1024 clause at the concrete input 7. -/
theorem claim_C4_witness : 7 < 1024 ∧ human_size 7 = toString 7 ++ "B" :=
  ⟨by decide, claim_C4.2.2.2.2.2 7 (by decide)⟩

/-- C5: `dir_size` never propagates a per-entry failure: an unreadable or
vanished file contributes zero to the total, and an inaccessible
subdirectory is skipped, each leaving the rest of the aggregation intact
(in the embedding `dir_size` is a total function, mirroring that every
exception in the Python loop is caught and turned into `continue`). -/
theorem claim_C5 :
    (∀ (nm fn : String) (sz : ℕ) (cs : List FSTree),
        dir_size (.dir nm true (.file fn sz false :: cs)) = dir_size (.dir nm true cs))
    ∧ (∀ (nm m : String) (gs : List FSTree) (cs : List FSTree),
        dir_size (.dir nm true (.dir m false gs :: cs)) = dir_size (.dir nm true cs)) := by
  constructor
  · intro nm fn sz cs
    rw [dir_size_listable, dir_size_listable]
    simp [childSizeContribution]
  · intro nm m gs cs
    rw [dir_size_listable, dir_size_listable]
    simp [childSizeContribution, dir_size_unlistable]

/-- C10: a path whose tree cannot be walked at all — a non-directory path,
or a directory whose listing fails, which is also how a vanished path
behaves (`os.walk` yields no triple) — gets `dir_size` exactly 0, and
`dir_size` always returns a natural number (non-negative). -/
theorem claim_C10 :
    (∀ (nm : String) (cs : List FSTree), dir_size (.dir nm false cs) = 0)
    ∧ (∀ (nm : String) (sz : ℕ) (r : Bool), dir_size (.file nm sz r) = 0)
    ∧ (∀ t : FSTree, 0 ≤ dir_size t) :=
  ⟨fun nm cs => dir_size_unlistable nm cs,
    fun nm sz r => dir_size_file nm sz r,
    fun _ => Nat.zero_le _⟩

/-- C2: the lines of a listable directory are rendered in the order of the
sorted sibling list, and that order is such that a directory sibling never
follows a file sibling, while two same-kind siblings appear with their
lower-cased names in non-decreasing code-point-lexicographic order (so a
strictly smaller lower-cased name is always rendered first). -/
theorem claim_C2 (nm : String) (cs : List FSTree) (E : List String) (lvl : ℕ) :
    list_tree (.dir nm true cs) E lvl = renderList (sortEntries cs) E lvl
    ∧ List.Pairwise
        (fun a b =>
          (b.isDirB = true → a.isDirB = true)
          ∧ (a.isDirB = b.isDirB →
              charListLe (a.name.data.map Char.toLower) (b.name.data.map Char.toLower) = true))
        (sortEntries cs) := by
  refine ⟨list_tree_sorted nm cs E lvl, ?_⟩
  have hs : List.Sorted entryLE (sortEntries cs) := List.sorted_insertionSort entryLE cs
  refine hs.imp ?_
  intro a b hab
  unfold entryLE entryLEB at hab
  constructor
  · intro hb
    by_contra ha
    have ha2 : a.isDirB = false := by revert ha; cases a.isDirB <;> simp
    rw [ha2, hb] at hab
    simp at hab
  · intro hk
    rw [if_pos hk] at hab
    exact hab

/-- C3: excluding a top-level subfolder `B` removes every line of `B` and
of its descendants from the output — the rendering equals that of the root
with `B` deleted — while the root header line still shows the `dir_size` of
the root computed on the full tree, exclusion set ignored. -/
theorem claim_C3 (rn bn : String) (cs1 cs2 : List FSTree) (bl : Bool) (bcs : List FSTree)
    (E : List String) (hB : bn ∈ E) :
    renderMain (.dir rn true (cs1 ++ .dir bn bl bcs :: cs2)) E
      = ["```",
          "[ ] FO " ++ padRight rn 30 ++ " "
            ++ human_size (dir_size (.dir rn true (cs1 ++ .dir bn bl bcs :: cs2)))]
        ++ list_tree (.dir rn true (cs1 ++ cs2)) E 1 ++ ["```"] := by
  unfold renderMain
  rw [list_tree_erase rn cs1 cs2 (.dir bn bl bcs) E 1 hB]
  rfl

/-- C3 witness: a concrete root with an excluded subfolder `B`. -/
theorem claim_C3_witness :
    renderMain (.dir "r" true ([] ++ .dir "B" true [.file "x" 1 true] :: [.file "f" 3 true])) ["B"]
      = ["```",
          "[ ] FO " ++ padRight "r" 30 ++ " "
            ++ human_size (dir_size
              (.dir "r" true ([] ++ .dir "B" true [.file "x" 1 true] :: [.file "f" 3 true])))]
        ++ list_tree (.dir "r" true ([] ++ [.file "f" 3 true])) ["B"] 1 ++ ["```"] :=
  claim_C3 "r" "B" [] [.file "f" 3 true] true [.file "x" 1 true] ["B"] (by decide)

/-- C8: exclusion is tested by exact base name at every recursion level and
regardless of kind: a file child whose name is in the exclusion set is
omitted from the rendering of its parent directory, at any nesting level
`lvl` — and the loop of `list_tree` runs with the same exclusion set at
every level, so this applies at every depth of the tree. -/
theorem claim_C8 (nm fn : String) (sz : ℕ) (r : Bool) (cs1 cs2 : List FSTree)
    (E : List String) (lvl : ℕ) (hf : fn ∈ E) :
    list_tree (.dir nm true (cs1 ++ .file fn sz r :: cs2)) E lvl
      = list_tree (.dir nm true (cs1 ++ cs2)) E lvl :=
  list_tree_erase nm cs1 cs2 (.file fn sz r) E lvl hf

/-- C8 witness: a concrete directory with an excluded file `skip.txt` at
nesting level 2. -/
theorem claim_C8_witness :
    list_tree (.dir "d" true ([.dir "sub" true []] ++ .file "skip.txt" 9 true :: [.file "k" 2 true]))
        ["skip.txt"] 2
      = list_tree (.dir "d" true ([.dir "sub" true []] ++ [.file "k" 2 true])) ["skip.txt"] 2 :=
  claim_C8 "d" "skip.txt" 9 true [.dir "sub" true []] [.file "k" 2 true] ["skip.txt"] 2 (by decide)

/-- C6: a directory whose children cannot be listed makes `list_tree` emit
exactly one inaccessible-marker line and return without descending; and
when such a directory sits among the children of a rendered directory the
rest of the rendering continues unchanged — its contribution is exactly its
own `FO` line (with the 0-byte size the failed walk produces) followed by
the single marker line. -/
theorem claim_C6 :
    (∀ (nm : String) (cs : List FSTree) (E : List String) (lvl : ℕ),
        list_tree (.dir nm false cs) E lvl
          = [repeatStr lvl "  " ++ "[ ] !! " ++ nm ++ " <inaccessible>"])
    ∧ (∀ (nm m : String) (gs cs1 cs2 : List FSTree) (E : List String) (lvl : ℕ),
        m ∉ E → ∃ pre post,
          list_tree (.dir nm true (cs1 ++ .dir m false gs :: cs2)) E lvl
            = pre ++ ((repeatStr lvl "  " ++ "[ ] FO " ++ m ++ "  " ++ "0B")
                :: (repeatStr (lvl + 1) "  " ++ "[ ] !! " ++ m ++ " <inaccessible>") :: post)
          ∧ list_tree (.dir nm true (cs1 ++ cs2)) E lvl = pre ++ post) := by
  constructor
  · intro nm cs E lvl
    exact list_tree_unlistable nm cs E lvl
  · intro nm m gs cs1 cs2 E lvl hm
    obtain ⟨u, v, h1, h2⟩ := sortEntries_erase (.dir m false gs) cs1 cs2
    refine ⟨renderList u E lvl, renderList v E lvl, ?_, ?_⟩
    · rw [list_tree_sorted, h1, renderList_append]
      have hmid : renderList (FSTree.dir m false gs :: v) E lvl
          = (repeatStr lvl "  " ++ "[ ] FO " ++ m ++ "  " ++ "0B")
            :: (repeatStr (lvl + 1) "  " ++ "[ ] !! " ++ m ++ " <inaccessible>")
            :: renderList v E lvl := by
        have h0 : sizeStrOf (FSTree.dir m false gs) = "0B" := by
          simp only [sizeStrOf, dir_size_unlistable]
          decide
        simp only [renderList, renderOne, FSTree.name, FSTree.isDirB, if_neg hm,
          list_tree_unlistable, h0]
        simp
      rw [hmid]
    · rw [list_tree_sorted, h2, renderList_append]

/-- C6 witness: the continuation clause at a concrete directory holding an
unreadable subdirectory and two readable files (the spec's partial-failure
scenario). -/
theorem claim_C6_witness :
    ∃ pre post,
      list_tree (.dir "p" true ([] ++ .dir "bad" false [] :: [.file "a" 5 true, .file "b" 7 true]))
          [] 1
        = pre ++ ((repeatStr 1 "  " ++ "[ ] FO " ++ "bad" ++ "  " ++ "0B")
            :: (repeatStr (1 + 1) "  " ++ "[ ] !! " ++ "bad" ++ " <inaccessible>") :: post)
        ∧ list_tree (.dir "p" true ([] ++ [.file "a" 5 true, .file "b" 7 true])) [] 1 = pre ++ post :=
  claim_C6.2 "p" "bad" [] [] [.file "a" 5 true, .file "b" 7 true] [] 1 (by decide)

/-- C9: when computing the size of an entry fails during rendering — for a
file, `os.path.getsize` raising — the entry's line is still emitted, with
the `<inaccessible>` sentinel in the size column; and a directory entry is
always recursed into right after its own line, whatever its size string
was. -/
theorem claim_C9 :
    (∀ (nm fn : String) (sz : ℕ) (cs : List FSTree) (E : List String) (lvl : ℕ),
        FSTree.file fn sz false ∈ cs → fn ∉ E →
          (repeatStr lvl "  " ++ "- [ ] FI " ++ fn ++ "  " ++ "<inaccessible>")
            ∈ list_tree (.dir nm true cs) E lvl)
    ∧ (∀ (nm m : String) (ml : Bool) (gs cs : List FSTree) (E : List String) (lvl : ℕ),
        FSTree.dir m ml gs ∈ cs → m ∉ E →
          ∃ pre post, list_tree (.dir nm true cs) E lvl
            = pre ++ ((repeatStr lvl "  " ++ "[ ] FO " ++ m ++ "  "
                ++ sizeStrOf (FSTree.dir m ml gs))
              :: list_tree (FSTree.dir m ml gs) E (lvl + 1)) ++ post) := by
  constructor
  · intro nm fn sz cs E lvl hmem hnE
    have hmem2 : FSTree.file fn sz false ∈ sortEntries cs :=
      ((List.perm_insertionSort entryLE cs).mem_iff).mpr hmem
    obtain ⟨s, t, hst⟩ := List.append_of_mem hmem2
    rw [list_tree_sorted, hst, renderList_append]
    have hmid : renderList (FSTree.file fn sz false :: t) E lvl
        = (repeatStr lvl "  " ++ "- [ ] FI " ++ fn ++ "  " ++ "<inaccessible>")
          :: renderList t E lvl := by
      simp only [renderList, renderOne, sizeStrOf, FSTree.name, FSTree.isDirB, if_neg hnE]
      simp
    rw [hmid]
    exact List.mem_append_right _ (List.mem_cons_self _ _)
  · intro nm m ml gs cs E lvl hmem hnE
    have hmem2 : FSTree.dir m ml gs ∈ sortEntries cs :=
      ((List.perm_insertionSort entryLE cs).mem_iff).mpr hmem
    obtain ⟨s, t, hst⟩ := List.append_of_mem hmem2
    refine ⟨renderList s E lvl, renderList t E lvl, ?_⟩
    rw [list_tree_sorted, hst, renderList_append]
    have hmid : renderList (FSTree.dir m ml gs :: t) E lvl
        = ((repeatStr lvl "  " ++ "[ ] FO " ++ m ++ "  " ++ sizeStrOf (FSTree.dir m ml gs))
            :: list_tree (FSTree.dir m ml gs) E (lvl + 1)) ++ renderList t E lvl := by
      simp only [renderList, renderOne, FSTree.name, FSTree.isDirB, if_neg hnE]
      simp
    rw [hmid]
    simp

/-- C9 witness: both clauses at concrete inputs — an unreadable file child
is rendered with the sentinel, and a directory child is recursed into. -/
theorem claim_C9_witness :
    ((repeatStr 1 "  " ++ "- [ ] FI " ++ "gone.txt" ++ "  " ++ "<inaccessible>")
        ∈ list_tree (.dir "p" true [.file "gone.txt" 4 false]) [] 1)
    ∧ (∃ pre post, list_tree (.dir "p" true [.dir "sub" true [.file "x" 2 true]]) [] 1
        = pre ++ ((repeatStr 1 "  " ++ "[ ] FO " ++ "sub" ++ "  "
            ++ sizeStrOf (FSTree.dir "sub" true [.file "x" 2 true]))
          :: list_tree (FSTree.dir "sub" true [.file "x" 2 true]) [] (1 + 1)) ++ post) :=
  ⟨claim_C9.1 "p" "gone.txt" 4 [.file "gone.txt" 4 false] [] 1
      (List.mem_cons_self _ _) (by decide),
    claim_C9.2 "p" "sub" true [.file "x" 2 true] [.dir "sub" true [.file "x" 2 true]] [] 1
      (List.mem_cons_self _ _) (by decide)⟩

/-- Length of a repeated string. -/
theorem repeatStr_length (k : ℕ) (s : String) : (repeatStr k s).length = k * s.length := by
  induction k with
  | zero => simp [repeatStr]
  | succ k ih =>
    show (s ++ repeatStr k s).length = (k + 1) * s.length
    rw [String.length_append, ih]
    ring

/-- Every line of `renderList` comes from `renderOne` of some listed,
non-excluded entry. -/
theorem mem_renderList (l : List FSTree) (E : List String) (lvl : ℕ) (line : String)
    (h : line ∈ renderList l E lvl) : ∃ c, c ∈ l ∧ line ∈ renderOne c E lvl := by
  induction l with
  | nil => simp [renderList] at h
  | cons c rest ih =>
    simp only [renderList] at h
    rcases List.mem_append.mp h with h1 | h2
    · by_cases hc : c.name ∈ E
      · rw [if_pos hc] at h1; simp at h1
      · rw [if_neg hc] at h1; exact ⟨c, List.mem_cons_self _ _, h1⟩
    · obtain ⟨d, hd1, hd2⟩ := ih h2
      exact ⟨d, List.mem_cons_of_mem _ hd1, hd2⟩

/-- A member of a sorted child list is smaller than the directory node. -/
theorem sizeOf_lt_of_mem_sortEntries {c : FSTree} {cs : List FSTree} (h : c ∈ sortEntries cs)
    (nm : String) (b : Bool) : sizeOf c < sizeOf (FSTree.dir nm b cs) := by
  have h1 : c ∈ cs := (List.perm_insertionSort entryLE cs).mem_iff.mp h
  have h2 := List.sizeOf_lt_sizeOf_of_mem h1
  simp only [FSTree.dir.sizeOf_spec]
  omega

/-- The shapes a printed line can take: a directory line, a file line, or
an inaccessible marker.  The name is never padded; the size column of a
directory line is always a `human_size` rendering; a file line carries
either a `human_size` rendering or the `<inaccessible>` sentinel. -/
def LineShape (line : String) : Prop :=
  ∃ (k : ℕ) (nm sz : String),
    (line = repeatStr k "  " ++ "[ ] FO " ++ nm ++ "  " ++ sz
        ∧ (∃ n : ℕ, sz = human_size n))
    ∨ (line = repeatStr k "  " ++ "- [ ] FI " ++ nm ++ "  " ++ sz
        ∧ ((∃ n : ℕ, sz = human_size n) ∨ sz = "<inaccessible>"))
    ∨ line = repeatStr k "  " ++ "[ ] !! " ++ nm ++ " <inaccessible>"

/-- The spec's claimed common line format, made precise for the file lines
of one rendered directory: some fixed padding column `W` such that every
readable, non-excluded file child is rendered as
connector, status marker, kind icon, the name right-padded to `W`, one
space, and the size. -/
def claimC7Format : Prop :=
  ∃ W : ℕ, ∀ (nm fn : String) (sz : ℕ) (cs : List FSTree) (E : List String) (lvl : ℕ),
    FSTree.file fn sz true ∈ cs → fn ∉ E →
      (repeatStr lvl "  " ++ "- [ ] FI " ++ padRight fn W ++ " " ++ human_size sz)
        ∈ list_tree (.dir nm true cs) E lvl

/-- C7 counterexample: no fixed padding column exists — with two file
siblings `a` and `bb` of equal size, the rendered lines (which separate the
unpadded name from the size by exactly two spaces, ListFiles.py line 85)
are incompatible with every choice of `W`. -/
theorem claim_C7_counterexample : ¬ claimC7Format := by
  rintro ⟨W, h⟩
  have hout : list_tree (.dir "r" true [.file "a" 1 true, .file "bb" 1 true]) [] 1
      = ["  - [ ] FI a  1B", "  - [ ] FI bb  1B"] := by
    rw [list_tree_sorted]; decide
  have h1 := h "r" "a" 1 [.file "a" 1 true, .file "bb" 1 true] [] 1
    (List.mem_cons_self _ _) (by decide)
  have h2 := h "r" "bb" 1 [.file "a" 1 true, .file "bb" 1 true] [] 1
    (List.mem_cons_of_mem _ (List.mem_cons_self _ _)) (by decide)
  rw [hout] at h1 h2
  have e1 : (" " : String).length = 1 := by decide
  have epad : ∀ s : String, (padRight s W).length = s.length + (W - s.length) := by
    intro s
    simp [padRight, String.length_append, repeatStr_length, e1]
  have e2 : ("  " : String).length = 2 := by decide
  have e9 : ("- [ ] FI " : String).length = 9 := by decide
  have ehs : (human_size 1).length = 2 := by decide
  have ea : ("a" : String).length = 1 := by decide
  have eb : ("bb" : String).length = 2 := by decide
  have lenA : (repeatStr 1 "  " ++ "- [ ] FI " ++ padRight "a" W ++ " " ++ human_size 1).length
      = 15 + (W - 1) := by
    simp only [String.length_append, repeatStr_length, epad, e2, e9, e1, ehs, ea]
    omega
  have lenB : (repeatStr 1 "  " ++ "- [ ] FI " ++ padRight "bb" W ++ " " ++ human_size 1).length
      = 16 + (W - 2) := by
    simp only [String.length_append, repeatStr_length, epad, e2, e9, e1, ehs, eb]
    omega
  have lA : ("  - [ ] FI a  1B" : String).length = 16 := by decide
  have lB : ("  - [ ] FI bb  1B" : String).length = 17 := by decide
  rcases List.mem_cons.mp h1 with q1 | q1
  · -- the claimed `a` line matches the first output line, so W = 2
    have hW : W = 2 := by
      have := congrArg String.length q1
      rw [lenA, lA] at this
      omega
    subst hW
    rcases List.mem_cons.mp h2 with q2 | q2
    · exact absurd q2 (by decide)
    · rcases List.mem_singleton.mp q2 with q2
      exact absurd q2 (by decide)
  · rcases List.mem_singleton.mp q1 with q1
    -- the claimed `a` line matches the second output line, so W = 3
    have hW : W = 3 := by
      have := congrArg String.length q1
      rw [lenA, lB] at this
      omega
    subst hW
    exact absurd q1 (by decide)

/-- C7 (amended): every printed line is an indent followed by one of the
three fixed templates — `[ ] FO <name>` with two spaces and a
`human_size` string for directories, `- [ ] FI <name>` with two spaces and
a `human_size` string or the `<inaccessible>` sentinel for files, or the
`[ ] !! <name> <inaccessible>` marker — with the name not padded (file
lines also carry the `- ` connector that directory lines lack). -/
theorem claim_C7 : ∀ (t : FSTree) (E : List String) (lvl : ℕ) (line : String),
    line ∈ list_tree t E lvl → LineShape line := by
  have main : ∀ (N : ℕ) (t : FSTree), sizeOf t ≤ N → ∀ (E : List String) (lvl : ℕ)
      (line : String), line ∈ list_tree t E lvl → LineShape line := by
    intro N
    induction N with
    | zero =>
      intro t ht
      exact absurd ht (by cases t <;> simp)
    | succ N ih =>
      intro t ht E lvl line hline
      match t with
      | .file nm sz r =>
        rw [list_tree_file] at hline
        rcases List.mem_singleton.mp hline with rfl
        exact ⟨lvl, nm, "", Or.inr (Or.inr rfl)⟩
      | .dir nm listable cs =>
        cases listable with
        | false =>
          rw [list_tree_unlistable] at hline
          rcases List.mem_singleton.mp hline with rfl
          exact ⟨lvl, nm, "", Or.inr (Or.inr rfl)⟩
        | true =>
          rw [list_tree_sorted] at hline
          obtain ⟨c, hc, hone⟩ := mem_renderList (sortEntries cs) E lvl line hline
          have hcsize : sizeOf c < sizeOf (FSTree.dir nm true cs) :=
            sizeOf_lt_of_mem_sortEntries hc nm true
          match c with
          | .file fn fsz fr =>
            have : renderOne (.file fn fsz fr) E lvl
                = [repeatStr lvl "  " ++ "- [ ] FI " ++ fn ++ "  " ++ sizeStrOf (.file fn fsz fr)] := by
              simp [renderOne, FSTree.isDirB, FSTree.name]
            rw [this] at hone
            rcases List.mem_singleton.mp hone with rfl
            refine ⟨lvl, fn, sizeStrOf (.file fn fsz fr), Or.inr (Or.inl ⟨rfl, ?_⟩)⟩
            cases fr with
            | false => exact Or.inr rfl
            | true => exact Or.inl ⟨fsz, rfl⟩
          | .dir dn dl dcs =>
            have : renderOne (.dir dn dl dcs) E lvl
                = (repeatStr lvl "  " ++ "[ ] FO " ++ dn ++ "  " ++ sizeStrOf (.dir dn dl dcs))
                  :: list_tree (.dir dn dl dcs) E (lvl + 1) := by
              simp [renderOne, FSTree.isDirB, FSTree.name]
            rw [this] at hone
            rcases List.mem_cons.mp hone with rfl | hrec
            · exact ⟨lvl, dn, sizeStrOf (.dir dn dl dcs),
                Or.inl ⟨rfl, ⟨dir_size (.dir dn dl dcs), rfl⟩⟩⟩
            · exact ih (.dir dn dl dcs) (by omega) E (lvl + 1) line hrec
  intro t E lvl line hline
  exact main (sizeOf t) t (Nat.le_refl _) E lvl line hline

/-- C7 witness: the amended shape theorem at a concrete rendered line. -/
theorem claim_C7_witness :
    ("  - [ ] FI a  1B" ∈ list_tree (.dir "r" true [.file "a" 1 true]) [] 1)
    ∧ LineShape "  - [ ] FI a  1B" := by
  have hm : ("  - [ ] FI a  1B" : String) ∈ list_tree (.dir "r" true [.file "a" 1 true]) [] 1 := by
    rw [list_tree_sorted]; decide
  exact ⟨hm, claim_C7 (.dir "r" true [.file "a" 1 true]) [] 1 "  - [ ] FI a  1B" hm⟩
